import Mathlib

/-!
Shallow embedding of the fauna_italia_viewer application core:
record normalization (src/services/dataService.ts), the filter engine
(src/App.tsx and the table component), the multi-key sort engine and its
sort-key toggling (the table component), and the regional aggregation and
color classification (src/components/MapView.tsx), together with the fixed
region tables (src/types.ts).

JavaScript strings are modelled as Lean strings; all string operations are
written structurally over the underlying character list so that concrete
instances evaluate by kernel reduction.  Character comparison and
lowercasing follow code points (the data the app manipulates is ASCII).
A JavaScript object is modelled as an association list whose values are
`Option String`, with `none` standing for `undefined`; an absent key
behaves exactly like a key mapped to `undefined` in every operation the
application performs.
-/

namespace FaunaViewer

/-! ## String utilities -/

/-- Head match: the first list is a prefix of the second, by character equality. -/
def headMatch : List Char → List Char → Bool
  | [], _ => true
  | _ :: _, [] => false
  | a :: as, b :: bs => a == b && headMatch as bs

/-- Substring search: the needle occurs contiguously somewhere in the hay. -/
def seekSub (needle : List Char) : List Char → Bool
  | [] => headMatch needle []
  | c :: rest => headMatch needle (c :: rest) || seekSub needle rest

/-- JavaScript `hay.includes(needle)`. -/
def strContains (hay needle : String) : Bool :=
  seekSub needle.data hay.data

/-- ASCII lowercase of one character, as JavaScript `toLowerCase` acts on the ASCII range. -/
def lowerChar (c : Char) : Char :=
  if 65 ≤ c.toNat ∧ c.toNat ≤ 90 then Char.ofNat (c.toNat + 32) else c

/-- JavaScript `s.toLowerCase()` on ASCII data. -/
def lowerStr (s : String) : String :=
  String.mk (s.data.map lowerChar)

/-- Whitespace trim on a character list: drop leading and trailing whitespace. -/
def trimChars (l : List Char) : List Char :=
  ((l.dropWhile Char.isWhitespace).reverse.dropWhile Char.isWhitespace).reverse

/-- JavaScript `s.trim()`. -/
def jsTrim (s : String) : String :=
  String.mk (trimChars s.data)

/-- Lexicographic three-way comparison of character lists by code point,
modelling the JavaScript `<` and `>` operators on strings. -/
def lexCmp : List Char → List Char → Ordering
  | [], [] => .eq
  | [], _ :: _ => .lt
  | _ :: _, [] => .gt
  | a :: as, b :: bs =>
    if a < b then .lt
    else if b < a then .gt
    else lexCmp as bs

/-- Three-way string comparison, modelling the JavaScript relational operators. -/
def strCmp (a b : String) : Ordering :=
  lexCmp a.data b.data

/-- JavaScript `Array.join(" ")`. -/
def joinSpace : List String → String
  | [] => ""
  | [s] => s
  | s :: rest => s ++ " " ++ joinSpace rest

/-! ## Records (parsed rows) -/

/-- A parsed row: an association list from header names to values.  A value
`none` models JavaScript `undefined`; an absent key behaves identically. -/
abbrev Record := List (String × Option String)

/-- Property read `row[k]`, yielding `undefined` when the key is absent. -/
def getField (r : Record) (k : String) : Option String :=
  match r.find? (fun p => p.1 == k) with
  | some p => p.2
  | none => none

/-- JavaScript `String(row[k] || "")`: both `undefined` and the empty string
collapse to the empty string, any other string is returned unchanged. -/
def jsStr (r : Record) (k : String) : String :=
  (getField r k).getD ""

/-- JavaScript truthiness of a string-or-undefined value. -/
def jsTruthy (v : Option String) : Bool :=
  match v with
  | none => false
  | some s => s ≠ ""

/-- Object spread override `{...r, k: v}`: replaces the value in place when
the key already exists, otherwise appends the key at the end. -/
def setField (r : Record) (k : String) (v : Option String) : Record :=
  if r.any (fun p => p.1 == k) then
    r.map (fun p => if p.1 == k then (p.1, v) else p)
  else r ++ [(k, v)]

/-! ## Dataset loader and record normalizer (src/services/dataService.ts) -/

/-- Field access `row.F?.trim() || ""`: trim when present, empty string when absent. -/
def trimF (v : Option String) : String :=
  (v.map jsTrim).getD ""

/-- The ingestion gate `row => row.Genere && row.Specie` (JavaScript truthiness). -/
def keepRow (row : Record) : Bool :=
  jsTruthy (getField row "Genere") && jsTruthy (getField row "Specie")

/-- The guard `!!row.Sottospecie && row.Sottospecie.trim() !== ""`. -/
def hasSubspecies (row : Record) : Bool :=
  match getField row "Sottospecie" with
  | none => false
  | some s => s ≠ "" && jsTrim s ≠ ""

/-- Composition of `Nome Scientifico` from the trimmed name parts:
the non-empty elements of genus, parenthesized subgenus, species and
subspecies joined by single spaces. -/
def nomeScientifico (row : Record) : String :=
  let genus := trimF (getField row "Genere")
  let subgenus := trimF (getField row "Sottogenere")
  let species := trimF (getField row "Specie")
  let subspecies := trimF (getField row "Sottospecie")
  joinSpace (([genus,
    if subgenus ≠ "" then "(" ++ subgenus ++ ")" else "",
    species,
    subspecies]).filter (fun p => p ≠ ""))

/-- The conditional author retention: the subspecies authorship column when
`hasSubspecies`, the species authorship column otherwise. -/
def autoreOf (row : Record) : Option String :=
  if hasSubspecies row then getField row "Autore e anno sottospecie"
  else getField row "Autore e anno specie"

/-- One processed row: the spread `{...row, "Nome Scientifico": ..., "Autore": ...}`. -/
def normalizeRow (row : Record) : Record :=
  setField (setField row "Nome Scientifico" (some (nomeScientifico row)))
    "Autore" (autoreOf row)

/-- The loader pipeline on already-parsed rows: filter by the
Genere/Specie gate, then map the normalizer over the survivors. -/
def loadAndProcessData (rawData : List Record) : List Record :=
  (rawData.filter keepRow).map normalizeRow

/-! ## Filter engine (src/App.tsx `filteredData`, also the table component) -/

/-- One filter entry check: an empty query always passes, a non-empty query
requires the lowercased cell value to contain the lowercased query. -/
def matchesEntry (row : Record) (kv : String × String) : Bool :=
  if kv.2 = "" then true
  else strContains (lowerStr (jsStr row kv.1)) (lowerStr kv.2)

/-- The filter engine: keep the rows satisfying every filter entry. -/
def filteredData (data : List Record) (filters : List (String × String)) : List Record :=
  data.filter (fun row => filters.all (fun kv => matchesEntry row kv))

/-- Filter-state update `{...prev, [k]: v}`. -/
def setFilter (fs : List (String × String)) (k v : String) : List (String × String) :=
  if fs.any (fun p => p.1 == k) then
    fs.map (fun p => if p.1 == k then (p.1, v) else p)
  else fs ++ [(k, v)]

/-- Clicking a region on the map: set that region filter to the string "y". -/
def handleRegionClick (fs : List (String × String)) (regionCode : String) :
    List (String × String) :=
  setFilter fs regionCode "y"

/-! ## Sort engine (table component `sortedData` and `toggleSort`) -/

/-- One sort key: the column name and whether the direction is ascending. -/
abbrev SortKey := String × Bool

/-- The comparator loop: walk the sort keys in priority order, compare the
stringified cell values case-sensitively, flip the outcome for a descending
key, and fall through to the next key on equality. -/
def cmpRows (config : List SortKey) (a b : Record) : Ordering :=
  match config with
  | [] => .eq
  | (k, asc) :: rest =>
    match strCmp (jsStr a k) (jsStr b k) with
    | .lt => if asc then .lt else .gt
    | .gt => if asc then .gt else .lt
    | .eq => cmpRows rest a b

/-- The non-strict order induced by the comparator: a sorts no later than b. -/
def rowLE (config : List SortKey) (a b : Record) : Bool :=
  cmpRows config a b != Ordering.gt

/-- The sort engine: the identity on an empty key list, otherwise a stable
sort by the comparator, as specified for `Array.prototype.sort`. -/
def sortedData (config : List SortKey) (data : List Record) : List Record :=
  if config.isEmpty then data else data.mergeSort (rowLE config)

/-- Sort-key toggling: cycle the activated key ascending to descending to
removed; with shift held (extend) remove the stale entry and append the new
state, without shift (replace) keep only the new state. -/
def toggleSort (prev : List SortKey) (key : String) (shiftKey : Bool) : List SortKey :=
  let next : Option SortKey :=
    match prev.find? (fun s => s.1 == key) with
    | some s => if s.2 then some (key, false) else none
    | none => some (key, true)
  if shiftKey then
    match next with
    | none => prev.filter (fun s => s.1 != key)
    | some n => prev.filter (fun s => s.1 != key) ++ [n]
  else
    match next with
    | some n => [n]
    | none => []

/-! ## Regional aggregation and color classification (src/components/MapView.tsx) -/

/-- The keys of `REGIONS_MAP` from src/types.ts, in object insertion order. -/
def regionsMapKeys : List String :=
  ["Ao", "Pi", "Lo", "VT", "V", "FVG", "Li", "ER", "To", "Ma", "Um", "La",
   "Abr", "Mo", "Cp", "Pu", "Bas", "Cal", "Si", "Sa", "RSM", "CV", "CT", "Cor", "M"]

/-- The `MACRO_REGIONS` membership table from src/types.ts. -/
def MACRO_REGIONS : List (String × List String) :=
  [("N", ["Ao", "Pi", "Lo", "VT", "V", "FVG", "Li", "ER"]),
   ("S", ["To", "Ma", "Um", "La", "Abr", "Mo", "Cp", "Pu", "Bas", "Cal",
          "RSM", "CV", "CT", "Cor", "M"]),
   ("Si", ["Si"]),
   ("Sa", ["Sa"])]

/-- Count of records whose value at a code is exactly the string "y"
(the strict equality `row[code] === "y"`). -/
def regionCount (data : List Record) (code : String) : Nat :=
  (data.filter (fun row => getField row code == some "y")).length

/-- The `stats.regionStats` object: one entry per key of `REGIONS_MAP`. -/
def regionStats (data : List Record) : List (String × Nat) :=
  regionsMapKeys.map (fun code => (code, regionCount data code))

/-- Lookup `stats.regionStats[code] || 0`. -/
def statsLookup (data : List Record) (code : String) : Nat :=
  match (regionStats data).find? (fun p => p.1 == code) with
  | some p => p.2
  | none => 0

/-- JavaScript `Math.max(...counts, 1)` over the spread count list. -/
def listMax : List Nat → Nat
  | [] => 0
  | a :: rest => max a (listMax rest)

/-- JavaScript `Math.min(...counts)` over a non-empty spread count list. -/
def listMin : List Nat → Nat
  | [] => 0
  | [a] => a
  | a :: rest => min a (listMin rest)

/-- The colors `getColor` can produce: the slate no-data fill, the green
Present fill, the yellow Doubtful fill, or the interpolated scale at a
normalized position. -/
inductive MapColor where
  | slate
  | green
  | yellow
  | scaled (t : ℚ)
deriving DecidableEq, Repr

/-- The `getColor` classification: empty data is slate everywhere; a
singleton collection is categorical on the raw cell value; otherwise a count
of zero is slate and a positive count is placed on the color scale by linear
normalization of the counts, with the maximum forced to at least 1 and the
position forced to 1 when maximum and minimum coincide. -/
def getColor (data : List Record) (code : String) : MapColor :=
  match data with
  | [] => .slate
  | [row] =>
    let val := getField row code
    if val == some "y" then .green
    else if val == some "?" then .yellow
    else .slate
  | _ :: _ :: _ =>
    let counts := (regionStats data).map Prod.snd
    let maxVal := max (listMax counts) 1
    let minVal := listMin counts
    let count := statsLookup data code
    if count = 0 then .slate
    else .scaled (if maxVal = minVal then 1
      else ((count : ℚ) - (minVal : ℚ)) / ((maxVal : ℚ) - (minVal : ℚ)))

/-- One key comparison as seen by the comparator: the string comparison on
the cell values, flipped when the direction is descending. -/
def keyCmp (k : String) (asc : Bool) (a b : Record) : Ordering :=
  if asc then strCmp (jsStr a k) (jsStr b k) else (strCmp (jsStr a k) (jsStr b k)).swap

/-! ## Helper lemmas on the record model -/

theorem getField_map_same (r : Record) (k : String) (v : Option String)
    (h : r.any (fun p => p.1 == k) = true) :
    getField (r.map (fun p => if p.1 == k then (p.1, v) else p)) k = v := by
  induction r with
  | nil => simp at h
  | cons p rest ih =>
    by_cases hk : p.1 = k
    · simp only [getField, List.map_cons, List.find?]
      rw [if_pos (by simp [hk])]
      simp [hk]
    · have h' : rest.any (fun p => p.1 == k) = true := by
        simpa [hk] using h
      simp only [getField, List.map_cons, List.find?] at ih ⊢
      rw [if_neg (by simp [hk])]
      have hb : (p.1 == k) = false := by simp [hk]
      simp only [hb]
      simpa using ih h'

theorem getField_map_other (r : Record) (k k' : String) (v : Option String)
    (h : k' ≠ k) :
    getField (r.map (fun p => if p.1 == k then (p.1, v) else p)) k' = getField r k' := by
  induction r with
  | nil => simp [getField]
  | cons p rest ih =>
    by_cases hk : p.1 = k
    · simp only [getField, List.map_cons, List.find?] at ih ⊢
      rw [if_pos (by simp [hk])]
      have hb : (p.1 == k') = false := by simp [hk, Ne.symm h]
      simp only [hb]
      simpa using ih
    · simp only [getField, List.map_cons, List.find?] at ih ⊢
      rw [if_neg (by simp [hk])]
      cases hpk : (p.1 == k') with
      | true => simp [hpk]
      | false => simp only [hpk]; simpa using ih

theorem getField_append_single_same (r : Record) (k : String) (v : Option String)
    (h : r.any (fun p => p.1 == k) = false) :
    getField (r ++ [(k, v)]) k = v := by
  induction r with
  | nil => simp [getField, List.find?]
  | cons p rest ih =>
    simp only [List.any_cons, Bool.or_eq_false_iff] at h
    simp only [getField, List.cons_append, List.find?, h.1] at ih ⊢
    simpa using ih h.2

theorem getField_append_single_other (r : Record) (k k' : String) (v : Option String)
    (h : k' ≠ k) :
    getField (r ++ [(k, v)]) k' = getField r k' := by
  induction r with
  | nil =>
    have hb : (k == k') = false := by simp [Ne.symm h]
    simp [getField, List.find?, hb]
  | cons p rest ih =>
    by_cases hk' : p.1 = k'
    · simp [getField, List.find?, hk']
    · have hb : (p.1 == k') = false := by simp [hk']
      simp only [getField, List.cons_append, List.find?, hb] at ih ⊢
      simpa using ih

theorem getField_setField_same (r : Record) (k : String) (v : Option String) :
    getField (setField r k v) k = v := by
  unfold setField
  split
  · exact getField_map_same r k v (by assumption)
  · rename_i hny
    exact getField_append_single_same r k v (Bool.eq_false_iff.mpr hny)

theorem getField_setField_other (r : Record) (k k' : String) (v : Option String)
    (h : k' ≠ k) :
    getField (setField r k v) k' = getField r k' := by
  unfold setField
  split
  · exact getField_map_other r k k' v h
  · exact getField_append_single_other r k k' v h

theorem getField_normalizeRow_nome (row : Record) :
    getField (normalizeRow row) "Nome Scientifico" = some (nomeScientifico row) := by
  unfold normalizeRow
  rw [getField_setField_other _ _ _ _ (by decide)]
  exact getField_setField_same _ _ _

theorem getField_normalizeRow_autore (row : Record) :
    getField (normalizeRow row) "Autore" = autoreOf row := by
  unfold normalizeRow
  exact getField_setField_same _ _ _

theorem jsTrim_empty : jsTrim "" = "" := by decide

theorem hasSubspecies_iff_trim (row : Record) :
    hasSubspecies row = true ↔ trimF (getField row "Sottospecie") ≠ "" := by
  unfold hasSubspecies trimF
  cases getField row "Sottospecie" with
  | none => simp
  | some s =>
    by_cases hs : s = ""
    · subst hs; simp [jsTrim_empty]
    · simp [hs]

theorem trimF_eq (v : Option String) : trimF v = jsTrim (v.getD "") := by
  cases v <;> simp [trimF, jsTrim_empty]

theorem jsTruthy_eq_false_iff (v : Option String) :
    jsTruthy v = false ↔ v.getD "" = "" := by
  cases v <;> simp [jsTruthy]

/-! ## Claim theorems on ingestion (C2, C3, C4) -/

/-- Row whose Genere is whitespace only: trimmed-empty but JavaScript-truthy. -/
def wsGenusRow : Record := [("Genere", some " "), ("Specie", some "bufo")]

/-- Row whose Genere is the empty string. -/
def emptyGenusRow : Record := [("Genere", some ""), ("Specie", some "x")]

/-- Claim C2 counterexample: a row whose Genere trims to the empty string is
nevertheless retained by the loader, because the ingestion gate tests
JavaScript truthiness of the raw value and never trims. -/
theorem C2_counterexample :
    jsTrim ((getField wsGenusRow "Genere").getD "") = "" ∧
    loadAndProcessData [wsGenusRow] ≠ [] := by decide

/-- Claim C2 as amended: a row is dropped by the loader when its Genere or
its Specie is absent or the empty string (JavaScript-falsy, with no
trimming); such a row contributes nothing to the output wherever it occurs. -/
theorem C2_amended (pre post : List Record) (row : Record)
    (h : (getField row "Genere").getD "" = "" ∨ (getField row "Specie").getD "" = "") :
    loadAndProcessData (pre ++ row :: post) = loadAndProcessData (pre ++ post) := by
  have hkeep : keepRow row = false := by
    unfold keepRow
    rcases h with h | h
    · rw [(jsTruthy_eq_false_iff _).mpr h]
      simp
    · rw [(jsTruthy_eq_false_iff _).mpr h]
      simp
  simp [loadAndProcessData, List.filter_append, List.filter_cons, hkeep]

theorem C2_amended_witness :
    ((getField emptyGenusRow "Genere").getD "" = "" ∨
      (getField emptyGenusRow "Specie").getD "" = "") ∧
    loadAndProcessData ([] ++ emptyGenusRow :: []) = loadAndProcessData ([] ++ []) :=
  ⟨Or.inl (by decide), C2_amended [] [] emptyGenusRow (Or.inl (by decide))⟩

/-- Example from the specification: genus, species and subspecies, no subgenus. -/
def bufoRow1 : Record :=
  [("Genere", some "Bufo"), ("Sottogenere", some ""), ("Specie", some "bufo"),
   ("Sottospecie", some "spinosus")]

/-- Example from the specification: genus, subgenus and species, no subspecies. -/
def bufoRow2 : Record :=
  [("Genere", some "Bufo"), ("Sottogenere", some "Epidalea"), ("Specie", some "bufo"),
   ("Sottospecie", some "")]

/-- Claim C3: the derived Nome Scientifico of every processed row is the
list of non-empty elements among the trimmed genus, the trimmed subgenus
wrapped in parentheses when non-empty, the trimmed species and the trimmed
subspecies, in that fixed order, joined by single spaces; in particular the
two compositions named by the specification come out as stated. -/
theorem C3_scientific_name :
    (∀ row : Record,
      getField (normalizeRow row) "Nome Scientifico" =
        some (joinSpace (([jsTrim ((getField row "Genere").getD ""),
          (if jsTrim ((getField row "Sottogenere").getD "") ≠ "" then
             "(" ++ jsTrim ((getField row "Sottogenere").getD "") ++ ")" else ""),
          jsTrim ((getField row "Specie").getD ""),
          jsTrim ((getField row "Sottospecie").getD "")]).filter (fun p => p ≠ "")))) ∧
    getField (normalizeRow bufoRow1) "Nome Scientifico" = some "Bufo bufo spinosus" ∧
    getField (normalizeRow bufoRow2) "Nome Scientifico" = some "Bufo (Epidalea) bufo" := by
  refine ⟨fun row => ?_, by decide, by decide⟩
  rw [getField_normalizeRow_nome]
  simp only [nomeScientifico, trimF_eq]

/-- Row with a subspecies whose subspecies authorship column is the empty string. -/
def subspAuthorRow : Record :=
  [("Genere", some "Bufo"), ("Specie", some "bufo"), ("Sottospecie", some "spinosus"),
   ("Autore e anno specie", some "Linnaeus, 1758"), ("Autore e anno sottospecie", some "")]

/-- Claim C4: the derived Autore of every processed row is, verbatim, the
subspecies authorship column when the trimmed Sottospecie is non-empty and
the species authorship column otherwise; in particular an empty subspecies
authorship string is passed through as-is and never falls back. -/
theorem C4_author_selection :
    (∀ row : Record,
      getField (normalizeRow row) "Autore" =
        (if jsTrim ((getField row "Sottospecie").getD "") ≠ "" then
           getField row "Autore e anno sottospecie"
         else getField row "Autore e anno specie")) ∧
    jsTrim ((getField subspAuthorRow "Sottospecie").getD "") ≠ "" ∧
    getField subspAuthorRow "Autore e anno sottospecie" = some "" ∧
    getField (normalizeRow subspAuthorRow) "Autore" = some "" := by
  refine ⟨fun row => ?_, by decide, by decide, by decide⟩
  rw [getField_normalizeRow_autore]
  unfold autoreOf
  have hiff := hasSubspecies_iff_trim row
  rw [trimF_eq] at hiff
  by_cases h : hasSubspecies row = true
  · rw [if_pos h, if_pos (hiff.mp h)]
  · have h' : ¬ jsTrim ((getField row "Sottospecie").getD "") ≠ "" :=
      fun hc => h (hiff.mpr hc)
    rw [if_neg h, if_neg h']

/-! ## Helper lemmas for the filter engine -/

theorem matchesEntry_iff (r : Record) (kv : String × String) :
    matchesEntry r kv = true ↔
      (kv.2 ≠ "" → strContains (lowerStr (jsStr r kv.1)) (lowerStr kv.2) = true) := by
  unfold matchesEntry
  by_cases h : kv.2 = "" <;> simp [h]

theorem all_matchesEntry_iff (r : Record) (filters : List (String × String)) :
    (filters.all (fun kv => matchesEntry r kv) = true) ↔
      ∀ kv ∈ filters, kv.2 ≠ "" →
        strContains (lowerStr (jsStr r kv.1)) (lowerStr kv.2) = true := by
  rw [List.all_eq_true]
  constructor
  · intro h kv hm hne
    exact (matchesEntry_iff r kv).mp (h kv hm) hne
  · intro h kv hm
    exact (matchesEntry_iff r kv).mpr (h kv hm)

/-! ## Claim theorem on the filter engine (C5) -/

/-- Example data for the filter witness. -/
def exFilterData : List Record := [[("Genere", some "Bufo")], [("Genere", some "Rana")]]

/-- Claim C5: the filter engine returns the order-preserving subsequence of
records that, for every filter entry with a non-empty query, contain the
lowercased query as a substring of the lowercased stringified cell value
(empty for a missing field); empty queries are no-ops, and with no active
predicate the output is the input, unchanged and in order. -/
theorem C5_filter (data : List Record) (filters : List (String × String)) :
    (filteredData data filters).Sublist data ∧
    (∀ r : Record, r ∈ filteredData data filters ↔ r ∈ data ∧
      ∀ kv ∈ filters, kv.2 ≠ "" →
        strContains (lowerStr (jsStr r kv.1)) (lowerStr kv.2) = true) ∧
    ((∀ kv ∈ filters, kv.2 = "") → filteredData data filters = data) := by
  refine ⟨List.filter_sublist _, fun r => ?_, fun hall => ?_⟩
  · unfold filteredData
    rw [List.mem_filter]
    exact and_congr_right (fun _ => all_matchesEntry_iff r filters)
  · apply List.filter_eq_self.mpr
    intro r _
    rw [List.all_eq_true]
    intro kv hm
    simp [matchesEntry, hall kv hm]

theorem C5_filter_witness :
    (∀ kv ∈ ([("Genere", "")] : List (String × String)), kv.2 = "") ∧
    filteredData exFilterData [("Genere", "")] = exFilterData :=
  ⟨by decide, (C5_filter exFilterData [("Genere", "")]).2.2 (by decide)⟩

/-! ## Ordering lemmas for the sort engine -/

theorem lexCmp_eq_iff : ∀ (as bs : List Char), lexCmp as bs = .eq ↔ as = bs
  | [], [] => by simp [lexCmp]
  | [], _ :: _ => by simp [lexCmp]
  | _ :: _, [] => by simp [lexCmp]
  | a :: as, b :: bs => by
    unfold lexCmp
    rcases lt_trichotomy a b with h | h | h
    · rw [if_pos h]
      simp [ne_of_lt h]
    · subst h
      simp only [lt_self_iff_false, if_false]
      rw [lexCmp_eq_iff as bs]
      simp
    · rw [if_neg (not_lt_of_gt h), if_pos h]
      simp [ne_of_gt h]

theorem lexCmp_swap : ∀ (as bs : List Char), lexCmp bs as = (lexCmp as bs).swap
  | [], [] => rfl
  | [], _ :: _ => rfl
  | _ :: _, [] => rfl
  | a :: as, b :: bs => by
    unfold lexCmp
    rcases lt_trichotomy a b with h | h | h
    · rw [if_pos h, if_neg (not_lt_of_gt h), if_pos h]
      rfl
    · subst h
      simp only [lt_self_iff_false, if_false]
      exact lexCmp_swap as bs
    · rw [if_pos h, if_neg (not_lt_of_gt h), if_pos h]
      rfl

theorem lexCmp_lt_trans : ∀ {as bs cs : List Char},
    lexCmp as bs = .lt → lexCmp bs cs = .lt → lexCmp as cs = .lt
  | [], [], _, h1, _ => by simp [lexCmp] at h1
  | [], _ :: _, [], _, h2 => by simp [lexCmp] at h2
  | [], _ :: _, _ :: _, _, _ => by simp [lexCmp]
  | _ :: _, [], _, h1, _ => by simp [lexCmp] at h1
  | _ :: _, _ :: _, [], _, h2 => by simp [lexCmp] at h2
  | a :: as, b :: bs, c :: cs, h1, h2 => by
    unfold lexCmp at h1 h2 ⊢
    by_cases hab : a < b
    · by_cases hbc : b < c
      · rw [if_pos (lt_trans hab hbc)]
      · rw [if_neg hbc] at h2
        by_cases hcb : c < b
        · rw [if_pos hcb] at h2
          exact absurd h2 (by decide)
        · have hbceq : b = c := le_antisymm (not_lt.mp hcb) (not_lt.mp hbc)
          subst hbceq
          rw [if_pos hab]
    · rw [if_neg hab] at h1
      by_cases hba : b < a
      · rw [if_pos hba] at h1
        exact absurd h1 (by decide)
      · rw [if_neg hba] at h1
        have habeq : a = b := le_antisymm (not_lt.mp hba) (not_lt.mp hab)
        subst habeq
        by_cases hac : a < c
        · rw [if_pos hac]
        · rw [if_neg hac] at h2 ⊢
          by_cases hca : c < a
          · rw [if_pos hca] at h2
            exact absurd h2 (by decide)
          · rw [if_neg hca] at h2 ⊢
            exact lexCmp_lt_trans h1 h2

theorem lexCmp_gt_trans {as bs cs : List Char}
    (h1 : lexCmp as bs = .gt) (h2 : lexCmp bs cs = .gt) : lexCmp as cs = .gt := by
  have h1' : lexCmp bs as = .lt := by rw [lexCmp_swap as bs, h1]; rfl
  have h2' : lexCmp cs bs = .lt := by rw [lexCmp_swap bs cs, h2]; rfl
  have h3 := lexCmp_lt_trans h2' h1'
  rw [lexCmp_swap as cs] at h3
  have h4 := congrArg Ordering.swap h3
  rw [Ordering.swap_swap] at h4
  exact h4

theorem cmpRows_cons (k : String) (asc : Bool) (rest : List SortKey) (a b : Record) :
    cmpRows ((k, asc) :: rest) a b = (keyCmp k asc a b).then (cmpRows rest a b) := by
  conv_lhs => unfold cmpRows
  unfold keyCmp
  cases hx : strCmp (jsStr a k) (jsStr b k) <;> cases asc <;> rfl

theorem then_ne_gt {x y : Ordering} :
    x.then y ≠ .gt ↔ (x = .lt ∨ (x = .eq ∧ y ≠ .gt)) := by
  cases x <;> simp [Ordering.then]

theorem ordering_swap_eq_iff {o : Ordering} : o.swap = .eq ↔ o = .eq := by
  cases o <;> simp [Ordering.swap]

theorem keyCmp_swap (k : String) (asc : Bool) (a b : Record) :
    keyCmp k asc b a = (keyCmp k asc a b).swap := by
  unfold keyCmp strCmp
  rw [lexCmp_swap (jsStr a k).data (jsStr b k).data]
  cases asc <;> simp [Ordering.swap_swap]

theorem keyCmp_lt_trans {k : String} {asc : Bool} {a b c : Record}
    (h1 : keyCmp k asc a b = .lt) (h2 : keyCmp k asc b c = .lt) :
    keyCmp k asc a c = .lt := by
  unfold keyCmp strCmp at h1 h2 ⊢
  cases asc with
  | true =>
    simp only [if_true] at h1 h2 ⊢
    exact lexCmp_lt_trans h1 h2
  | false =>
    simp only [if_false, Bool.false_eq_true] at h1 h2 ⊢
    have h1' : lexCmp (jsStr a k).data (jsStr b k).data = .gt := by
      have := congrArg Ordering.swap h1
      rw [Ordering.swap_swap] at this
      exact this
    have h2' : lexCmp (jsStr b k).data (jsStr c k).data = .gt := by
      have := congrArg Ordering.swap h2
      rw [Ordering.swap_swap] at this
      exact this
    rw [lexCmp_gt_trans h1' h2']
    rfl

theorem keyCmp_data_eq {k : String} {asc : Bool} {a b : Record}
    (h : keyCmp k asc a b = .eq) : (jsStr a k).data = (jsStr b k).data := by
  unfold keyCmp strCmp at h
  cases asc with
  | true =>
    simp only [if_true] at h
    exact (lexCmp_eq_iff _ _).mp h
  | false =>
    simp only [if_false, Bool.false_eq_true] at h
    exact (lexCmp_eq_iff _ _).mp (ordering_swap_eq_iff.mp h)

theorem keyCmp_congr_left {k : String} {asc : Bool} {a b : Record} (c : Record)
    (h : (jsStr a k).data = (jsStr b k).data) :
    keyCmp k asc a c = keyCmp k asc b c := by
  unfold keyCmp strCmp
  rw [h]

theorem keyCmp_congr_right {k : String} {asc : Bool} {b c : Record} (a : Record)
    (h : (jsStr b k).data = (jsStr c k).data) :
    keyCmp k asc a b = keyCmp k asc a c := by
  unfold keyCmp strCmp
  rw [h]

theorem cmpRows_swap : ∀ (config : List SortKey) (a b : Record),
    cmpRows config b a = (cmpRows config a b).swap
  | [], _, _ => rfl
  | (k, asc) :: rest, a, b => by
    rw [cmpRows_cons, cmpRows_cons, keyCmp_swap, cmpRows_swap rest a b]
    cases keyCmp k asc a b <;> cases cmpRows rest a b <;>
      simp [Ordering.then, Ordering.swap]

theorem cmpRows_trans : ∀ (config : List SortKey) (a b c : Record),
    cmpRows config a b ≠ .gt → cmpRows config b c ≠ .gt → cmpRows config a c ≠ .gt
  | [], _, _, _, _, _ => by simp [cmpRows]
  | (k, asc) :: rest, a, b, c, h1, h2 => by
    rw [cmpRows_cons, then_ne_gt] at h1 h2 ⊢
    rcases h1 with h1 | ⟨h1e, h1r⟩
    · rcases h2 with h2 | ⟨h2e, h2r⟩
      · exact Or.inl (keyCmp_lt_trans h1 h2)
      · exact Or.inl (by rw [← keyCmp_congr_right a (keyCmp_data_eq h2e)]; exact h1)
    · rcases h2 with h2 | ⟨h2e, h2r⟩
      · exact Or.inl (by rw [keyCmp_congr_left c (keyCmp_data_eq h1e)]; exact h2)
      · refine Or.inr ⟨?_, cmpRows_trans rest a b c h1r h2r⟩
        rw [keyCmp_congr_left c (keyCmp_data_eq h1e)]
        exact h2e

theorem rowLE_iff (config : List SortKey) (a b : Record) :
    rowLE config a b = true ↔ cmpRows config a b ≠ .gt := by
  unfold rowLE
  cases cmpRows config a b <;> decide

theorem rowLE_total (config : List SortKey) (a b : Record) :
    rowLE config a b || rowLE config b a := by
  rw [Bool.or_eq_true, rowLE_iff, rowLE_iff, cmpRows_swap config a b]
  cases cmpRows config a b <;> simp [Ordering.swap]

theorem rowLE_trans (config : List SortKey) (a b c : Record)
    (h1 : rowLE config a b) (h2 : rowLE config b c) : rowLE config a c := by
  rw [rowLE_iff] at h1 h2 ⊢
  exact cmpRows_trans config a b c h1 h2

/-! ## Claim theorem on the sort engine (C6) -/

/-- Claim C6: the sort engine permutes the input, orders it so that no
record compares greater than a later one under the multi-key comparator
(first key first, case-sensitive string comparison of the stringified value
with empty for missing, direction deciding the orientation, equality falling
through to the next key), and is stable: any chain of records pairwise equal
under every key keeps its relative input order. -/
theorem C6_sort (config : List SortKey) (data : List Record) :
    (sortedData config data).Perm data ∧
    ((sortedData config data).Pairwise fun a b => cmpRows config a b ≠ .gt) ∧
    (∀ l : List Record, l.Pairwise (fun a b => cmpRows config a b = .eq) →
      l.Sublist data → l.Sublist (sortedData config data)) := by
  unfold sortedData
  by_cases hc : config.isEmpty
  · rw [if_pos hc]
    have hcfg : config = [] := List.isEmpty_iff.mp hc
    subst hcfg
    exact ⟨List.Perm.refl _, List.pairwise_of_forall (fun a b => by simp [cmpRows]),
      fun l _ hs => hs⟩
  · rw [if_neg hc]
    refine ⟨List.mergeSort_perm data _, ?_, fun l hp hs => ?_⟩
    · have h := List.sorted_mergeSort
        (fun a b c h1 h2 => rowLE_trans config a b c h1 h2)
        (rowLE_total config) data
      exact h.imp (fun hab => (rowLE_iff config _ _).mp hab)
    · have hp' : l.Pairwise (fun a b => rowLE config a b) := by
        refine hp.imp (fun hab => ?_)
        rw [rowLE_iff]
        intro hg
        rw [hab] at hg
        exact Ordering.noConfusion hg
      exact List.sublist_mergeSort
        (fun a b c h1 h2 => rowLE_trans config a b c h1 h2)
        (rowLE_total config) hp' hs

/-- Sort configuration for the sort witness. -/
def exSortCfg : List SortKey := [("Genere", true)]

/-- Data for the sort witness: one b-record, then two a-records that tie. -/
def exSortData : List Record :=
  [[("Genere", some "b"), ("id", some "0")],
   [("Genere", some "a"), ("id", some "1")],
   [("Genere", some "a"), ("id", some "2")]]

/-- The two tied records, in input order. -/
def exStablePair : List Record :=
  [[("Genere", some "a"), ("id", some "1")],
   [("Genere", some "a"), ("id", some "2")]]

theorem C6_sort_witness :
    exStablePair.Pairwise (fun a b => cmpRows exSortCfg a b = .eq) ∧
    exStablePair.Sublist exSortData ∧
    exStablePair.Sublist (sortedData exSortCfg exSortData) := by
  have hp : exStablePair.Pairwise (fun a b => cmpRows exSortCfg a b = .eq) :=
    List.pairwise_pair.mpr (by decide)
  have hs : exStablePair.Sublist exSortData :=
    List.Sublist.cons _ (List.Sublist.cons₂ _ (List.Sublist.cons₂ _ List.Sublist.slnil))
  exact ⟨hp, hs, (C6_sort exSortCfg exSortData).2.2 exStablePair hp hs⟩

/-! ## Claim theorems on sort-key toggling (C7) -/

/-- Claim C7 counterexample: extending on a key currently held ascending
does not update it in place; the code removes it and appends the new
descending state at the end, so the key moves behind the others. -/
theorem C7_counterexample :
    toggleSort [("A", true), ("B", true)] "A" true = [("B", true), ("A", false)] ∧
    toggleSort [("A", true), ("B", true)] "A" true ≠ [("A", false), ("B", true)] := by
  decide

/-- Claim C7 as amended: the activation cycle is ascending to descending to
removed and a new key enters ascending, but under the extend gesture the
toggled key is removed from its position and its new state is appended at
the end (the other keys keep their relative order, the toggled key moves to
lowest priority); under the replace gesture only the new state survives. -/
theorem C7_amended (prev : List SortKey) (key : String) :
    (prev.find? (fun s => s.1 == key) = some (key, true) →
       toggleSort prev key true = prev.filter (fun s => s.1 != key) ++ [(key, false)] ∧
       toggleSort prev key false = [(key, false)]) ∧
    (prev.find? (fun s => s.1 == key) = some (key, false) →
       toggleSort prev key true = prev.filter (fun s => s.1 != key) ∧
       toggleSort prev key false = []) ∧
    (prev.find? (fun s => s.1 == key) = none →
       toggleSort prev key true = prev ++ [(key, true)] ∧
       toggleSort prev key false = [(key, true)]) := by
  refine ⟨fun h => ?_, fun h => ?_, fun h => ?_⟩
  · constructor <;> simp [toggleSort, h]
  · constructor <;> simp [toggleSort, h]
  · have hfilter : prev.filter (fun s => s.1 != key) = prev := by
      apply List.filter_eq_self.mpr
      intro s hs
      have hn := List.find?_eq_none.mp h s hs
      simpa using hn
    constructor <;> simp [toggleSort, h, hfilter]

theorem C7_amended_witness :
    ([("A", true), ("B", true)] : List SortKey).find? (fun s => s.1 == "A") =
      some ("A", true) ∧
    toggleSort [("A", true), ("B", true)] "A" true =
      ([("A", true), ("B", true)] : List SortKey).filter (fun s => s.1 != "A") ++
        [("A", false)] :=
  ⟨by decide, ((C7_amended [("A", true), ("B", true)] "A").1 (by decide)).1⟩

/-! ## Helper lemmas for the aggregator -/

theorem find?_keyed_map_mem (keys : List String) (g : String → Nat) (c : String)
    (h : c ∈ keys) :
    (keys.map (fun k => (k, g k))).find? (fun p => p.1 == c) = some (c, g c) := by
  induction keys with
  | nil => simp at h
  | cons k ks ih =>
    by_cases hk : k = c
    · subst hk
      simp [List.find?]
    · have hb : (k == c) = false := by simp [hk]
      have hm : c ∈ ks := by
        rcases List.mem_cons.mp h with he | hm
        · exact absurd he.symm hk
        · exact hm
      simp [List.find?, hb, ih hm]

theorem find?_keyed_map_not_mem (keys : List String) (g : String → Nat) (c : String)
    (h : c ∉ keys) :
    (keys.map (fun k => (k, g k))).find? (fun p => p.1 == c) = none := by
  induction keys with
  | nil => simp
  | cons k ks ih =>
    have h1 : (k == c) = false := by
      simp only [beq_eq_false_iff_ne]
      exact fun e => h (e ▸ List.mem_cons_self k ks)
    have h2 : c ∉ ks := fun m => h (List.mem_cons_of_mem _ m)
    simp [List.find?, h1, ih h2]

theorem keyed_map_fst (keys : List String) (g : String → Nat) :
    ((keys.map (fun k => (k, g k))).map Prod.fst) = keys := by
  induction keys with
  | nil => rfl
  | cons k ks ih => simp [ih]

theorem statsLookup_mem (data : List Record) (code : String)
    (h : code ∈ regionsMapKeys) :
    statsLookup data code = regionCount data code := by
  unfold statsLookup regionStats
  rw [find?_keyed_map_mem regionsMapKeys (regionCount data) code h]

theorem statsLookup_nil (code : String) : statsLookup [] code = 0 := by
  unfold statsLookup
  cases hf : (regionStats []).find? (fun p => p.1 == code) with
  | none => rfl
  | some p =>
    have hp := List.mem_of_find?_eq_some hf
    unfold regionStats at hp
    rw [List.mem_map] at hp
    obtain ⟨c, _, rfl⟩ := hp
    rfl

/-! ## Claim theorems on the aggregation tiers (C1) -/

/-- Record populating only the macro field N, no concrete region field. -/
def macroOnlyRow : Record := [("N", some "y")]

/-- Claim C1 counterexample: for a collection whose one record has no
concrete region field at all, the aggregator does not switch to a
macro-keyed tier: its stats object still has no entry for the macro code N,
and the concrete region Lo, a member of N per the membership table, counts
0 even though the macro field N of the record counts 1 as Present. -/
theorem C1_counterexample :
    ((MACRO_REGIONS.find? (fun p => p.1 == "N")).map Prod.snd =
      some ["Ao", "Pi", "Lo", "VT", "V", "FVG", "Li", "ER"]) ∧
    ("Lo" ∈ (["Ao", "Pi", "Lo", "VT", "V", "FVG", "Li", "ER"] : List String)) ∧
    (∀ c ∈ regionsMapKeys, getField macroOnlyRow c = none) ∧
    regionCount [macroOnlyRow] "N" = 1 ∧
    statsLookup [macroOnlyRow] "Lo" = 0 ∧
    (regionStats [macroOnlyRow]).find? (fun p => p.1 == "N") = none := by
  decide

/-- Claim C1 as amended: the aggregator has a single resolution; for every
collection the stats object is keyed by the 25 codes of REGIONS_MAP (never
by the macro codes N and S), each entry counting the records whose value at
that code is exactly the string y, and records that mark no concrete region
contribute to no entry, with no inheritance from the macro membership
table. -/
theorem C1_amended (data : List Record) :
    ((regionStats data).map Prod.fst = regionsMapKeys) ∧
    (∀ code ∈ regionsMapKeys, statsLookup data code =
      (data.filter (fun row => getField row code == some "y")).length) ∧
    ((regionStats data).find? (fun p => p.1 == "N") = none ∧
     (regionStats data).find? (fun p => p.1 == "S") = none) ∧
    ((∀ row ∈ data, ∀ code ∈ regionsMapKeys, getField row code ≠ some "y") →
      ∀ code ∈ regionsMapKeys, statsLookup data code = 0) := by
  refine ⟨?_, fun code hc => ?_, ⟨?_, ?_⟩, fun hnone code hc => ?_⟩
  · unfold regionStats
    exact keyed_map_fst regionsMapKeys (regionCount data)
  · rw [statsLookup_mem data code hc]
    rfl
  · exact find?_keyed_map_not_mem _ _ _ (by decide)
  · exact find?_keyed_map_not_mem _ _ _ (by decide)
  · rw [statsLookup_mem data code hc]
    unfold regionCount
    have hnil : data.filter (fun row => getField row code == some "y") = [] := by
      apply List.filter_eq_nil_iff.mpr
      intro row hr
      simpa using hnone row hr code hc
    rw [hnil]
    rfl

theorem C1_amended_witness :
    (∀ row ∈ [macroOnlyRow], ∀ code ∈ regionsMapKeys, getField row code ≠ some "y") ∧
    (∀ code ∈ regionsMapKeys, statsLookup [macroOnlyRow] code = 0) :=
  ⟨by decide, (C1_amended [macroOnlyRow]).2.2.2 (by decide)⟩

/-! ## Claim theorems on color classification (C8, C9) -/

/-- Claim C8: for a collection of zero or at least two records a count of
exactly zero classifies as the no-data state before any normalization, and
a positive count is placed on the scale at the linear normalization of the
counts over all region entries, with the maximum forced to at least 1 and
the position forced to 1 whenever the forced maximum equals the minimum. -/
theorem C8_normalization (data : List Record) (code : String) (h : data.length ≠ 1) :
    (statsLookup data code = 0 → getColor data code = .slate) ∧
    (∀ minV maxV : ℕ,
      minV = listMin ((regionStats data).map Prod.snd) →
      maxV = max (listMax ((regionStats data).map Prod.snd)) 1 →
      statsLookup data code ≠ 0 →
      getColor data code = .scaled (if maxV = minV then 1
        else ((statsLookup data code : ℚ) - (minV : ℚ)) / ((maxV : ℚ) - (minV : ℚ)))) := by
  cases data with
  | nil =>
    exact ⟨fun _ => rfl, fun minV maxV _ _ hne => absurd (statsLookup_nil code) hne⟩
  | cons a tail =>
    cases tail with
    | nil => exact absurd rfl h
    | cons b rest =>
      have hshow : getColor (a :: b :: rest) code =
          (if statsLookup (a :: b :: rest) code = 0 then MapColor.slate
           else .scaled
             (if max (listMax ((regionStats (a :: b :: rest)).map Prod.snd)) 1 =
                 listMin ((regionStats (a :: b :: rest)).map Prod.snd) then 1
              else ((statsLookup (a :: b :: rest) code : ℚ) -
                  (listMin ((regionStats (a :: b :: rest)).map Prod.snd) : ℚ)) /
                (((max (listMax ((regionStats (a :: b :: rest)).map Prod.snd)) 1 : ℕ) : ℚ) -
                  (listMin ((regionStats (a :: b :: rest)).map Prod.snd) : ℚ)))) := rfl
      refine ⟨fun h0 => ?_, fun minV maxV hmin hmax hne => ?_⟩
      · rw [hshow, if_pos h0]
      · rw [hshow, if_neg hne]
        subst hmin hmax
        rfl

/-- Collection of five identical records Present in Lo and Pi only, giving
counts Lo = 5, Pi = 5 and 0 everywhere else: the shape of the
specification example with counts zero, five, five. -/
def exData5 : List Record := List.replicate 5 [("Lo", some "y"), ("Pi", some "y")]

theorem C8_normalization_witness :
    exData5.length ≠ 1 ∧
    statsLookup exData5 "Ao" = 0 ∧ getColor exData5 "Ao" = .slate ∧
    statsLookup exData5 "Lo" = 5 ∧ statsLookup exData5 "Pi" = 5 ∧
    getColor exData5 "Lo" = .scaled 1 ∧ getColor exData5 "Pi" = .scaled 1 := by
  refine ⟨by decide, by decide,
    (C8_normalization exData5 "Ao" (by decide)).1 (by decide),
    by decide, by decide, ?_, ?_⟩
  · have h := (C8_normalization exData5 "Lo" (by decide)).2 0 5 (by decide) (by decide)
      (by decide)
    rw [h, show statsLookup exData5 "Lo" = 5 from by decide]
    norm_num
  · have h := (C8_normalization exData5 "Pi" (by decide)).2 0 5 (by decide) (by decide)
      (by decide)
    rw [h, show statsLookup exData5 "Pi" = 5 from by decide]
    norm_num

/-- Claim C9: with exactly one record in the collection the classification
is categorical with no interpolation: value y is Present, value ? is
Doubtful, anything else including empty or missing is Absent. -/
theorem C9_singleton (row : Record) (code : String) :
    (getField row code = some "y" → getColor [row] code = .green) ∧
    (getField row code = some "?" → getColor [row] code = .yellow) ∧
    (getField row code ≠ some "y" → getField row code ≠ some "?" →
      getColor [row] code = .slate) := by
  have hshow : getColor [row] code =
      (if getField row code == some "y" then MapColor.green
       else if getField row code == some "?" then .yellow else .slate) := rfl
  refine ⟨fun h => ?_, fun h => ?_, fun h1 h2 => ?_⟩
  · rw [hshow, if_pos (by simp [h])]
  · rw [hshow, if_neg (by simp [h]), if_pos (by simp [h])]
  · rw [hshow, if_neg (by simp [h1]), if_neg (by simp [h2])]

/-- Singleton rows for the three categorical states. -/
def loYRow : Record := [("Lo", some "y")]

/-- Singleton row with the doubtful marker. -/
def loQRow : Record := [("Lo", some "?")]

/-- Singleton row with an empty region value. -/
def loERow : Record := [("Lo", some "")]

theorem C9_singleton_witness :
    getColor [loYRow] "Lo" = .green ∧ getColor [loQRow] "Lo" = .yellow ∧
    getColor [loERow] "Lo" = .slate :=
  ⟨(C9_singleton loYRow "Lo").1 (by decide),
   (C9_singleton loQRow "Lo").2.1 (by decide),
   (C9_singleton loERow "Lo").2.2 (by decide) (by decide)⟩

/-! ## Claim theorem on region clicks versus counted presence (C10) -/

theorem all_setFilter_y_iff (r : Record) (fs : List (String × String)) (code : String) :
    ((setFilter fs code "y").all (fun kv => matchesEntry r kv) = true) ↔
      (matchesEntry r (code, "y") = true ∧
       ∀ kv ∈ fs, kv.1 ≠ code → matchesEntry r kv = true) := by
  unfold setFilter
  split
  · rename_i hany
    rw [List.all_eq_true]
    constructor
    · intro hall
      constructor
      · rw [List.any_eq_true] at hany
        obtain ⟨p, hp, hpc⟩ := hany
        have hpc' : p.1 = code := by simpa using hpc
        have hm := hall _ (List.mem_map_of_mem _ hp)
        rw [if_pos hpc] at hm
        rw [← hpc']
        exact hm
      · intro kv hkv hne
        have hm := hall _ (List.mem_map_of_mem _ hkv)
        rw [if_neg (by simp [hne])] at hm
        exact hm
    · rintro ⟨hy, hrest⟩ x hx
      rw [List.mem_map] at hx
      obtain ⟨p, hp, rfl⟩ := hx
      by_cases hpc : p.1 = code
      · rw [if_pos (by simp [hpc])]
        show matchesEntry r (p.1, "y") = true
        rw [hpc]
        exact hy
      · rw [if_neg (by simp [hpc])]
        exact hrest p hp hpc
  · rename_i hany
    have hkeys : ∀ kv ∈ fs, kv.1 ≠ code := by
      intro kv hkv he
      exact hany (List.any_eq_true.mpr ⟨kv, hkv, by simp [he]⟩)
    rw [List.all_append, Bool.and_eq_true, List.all_eq_true, List.all_eq_true]
    constructor
    · rintro ⟨hfs, hy⟩
      exact ⟨by simpa using hy (code, "y") (List.mem_singleton.mpr rfl),
        fun kv hkv _ => hfs kv hkv⟩
    · rintro ⟨hy, hrest⟩
      refine ⟨fun kv hkv => hrest kv hkv (hkeys kv hkv), ?_⟩
      intro kv hkv
      rw [List.mem_singleton.mp hkv]
      exact hy

/-- Row whose Lo value is an uppercase Y: not counted as Present by the
aggregator, yet caught by the case-insensitive substring filter. -/
def upperYRow : Record := [("Lo", some "Y")]

/-- Claim C10: clicking a region sets that region filter to the string y,
so the records then shown are exactly those passing the other filters whose
lowercased value at that code contains y; every record the map counted as
Present (value exactly y) is among them, and for some inputs the shown set
is strictly larger than the counted set. -/
theorem C10_region_click :
    (∀ (data : List Record) (fs : List (String × String)) (code : String) (r : Record),
      r ∈ filteredData data (handleRegionClick fs code) ↔
        (r ∈ data ∧ strContains (lowerStr (jsStr r code)) (lowerStr "y") = true ∧
         ∀ kv ∈ fs, kv.1 ≠ code → kv.2 ≠ "" →
           strContains (lowerStr (jsStr r kv.1)) (lowerStr kv.2) = true)) ∧
    (∀ (data : List Record) (code : String) (r : Record),
      r ∈ data → getField r code = some "y" →
      r ∈ filteredData data (handleRegionClick [] code)) ∧
    (getField upperYRow "Lo" ≠ some "y" ∧
     regionCount [upperYRow] "Lo" = 0 ∧
     upperYRow ∈ filteredData [upperYRow] (handleRegionClick [] "Lo")) := by
  have hmain : ∀ (data : List Record) (fs : List (String × String)) (code : String)
      (r : Record),
      r ∈ filteredData data (handleRegionClick fs code) ↔
        (r ∈ data ∧ strContains (lowerStr (jsStr r code)) (lowerStr "y") = true ∧
         ∀ kv ∈ fs, kv.1 ≠ code → kv.2 ≠ "" →
           strContains (lowerStr (jsStr r kv.1)) (lowerStr kv.2) = true) := by
    intro data fs code r
    unfold filteredData handleRegionClick
    rw [List.mem_filter, all_setFilter_y_iff]
    constructor
    · rintro ⟨hmem, hy, hrest⟩
      refine ⟨hmem, (matchesEntry_iff r (code, "y")).mp hy
          (by exact (by decide : ("y" : String) ≠ "")),
        fun kv hkv hne hq => (matchesEntry_iff r kv).mp (hrest kv hkv hne) hq⟩
    · rintro ⟨hmem, hy, hrest⟩
      exact ⟨hmem, (matchesEntry_iff r (code, "y")).mpr (fun _ => hy),
        fun kv hkv hne => (matchesEntry_iff r kv).mpr (fun hq => hrest kv hkv hne hq)⟩
  refine ⟨hmain, fun data code r hmem hy => ?_, by decide, by decide, ?_⟩
  · rw [hmain data [] code r]
    refine ⟨hmem, ?_, by simp⟩
    rw [jsStr, hy]
    decide
  · rw [hmain [upperYRow] [] "Lo" upperYRow]
    exact ⟨by decide, by decide, by simp⟩

/-- Record counted as Present in Lo. -/
def presentRow : Record := [("Lo", some "y")]

theorem C10_region_click_witness :
    presentRow ∈ [presentRow] ∧ getField presentRow "Lo" = some "y" ∧
    presentRow ∈ filteredData [presentRow] (handleRegionClick [] "Lo") :=
  ⟨List.mem_singleton.mpr rfl, by decide,
   C10_region_click.2.1 [presentRow] "Lo" presentRow (List.mem_singleton.mpr rfl)
     (by decide)⟩

end FaunaViewer
